import Mathlib

/-!
Verification of the Eve incremental dataflow runtime against its
natural-language specification.  The definitions below are a shallow
embedding of the TypeScript runtime (interner, join node multiplicity
composition, generic-join proposal selection, choose-flow wiring,
anti-join left behavior, output nodes, the transaction loop and the
export collapse).  Machine numbers are modelled as Nat/Int; JavaScript
hashes become functions with pointwise update; fallible code returns
Except/Option.
-/

namespace Eve

/-- Pointwise update of a function, modelling assignment into a JS hash
or array slot. -/
def updf {α : Type} {β : Type} [DecidableEq α] (f : α → β) (a : α) (b : β) : α → β :=
  fun x => if x = a then b else f x

theorem updf_same {α β : Type} [DecidableEq α] (f : α → β) (a : α) (b : β) :
    updf f a b a = b := by simp [updf]

theorem updf_other {α β : Type} [DecidableEq α] (f : α → β) (a : α) (b : β)
    (x : α) (h : x ≠ a) : updf f a b x = f x := by simp [updf, h]

/-! ## Interner

`RawValue` is the union `string | number` of the source.  The two
dictionaries are physically separate, exactly as in the source, so a
number and the string spelling of that number can never share an ID. -/

inductive RawValue where
  | str (s : String)
  | num (n : Int)
deriving DecidableEq, Repr

/-- The interner state.  `IDRefCount` uses `Option Int`; `none` models a
JS `undefined` slot (whose decrement would be `NaN`). `IDFreeList` is a
stack with its head as the most recently pushed entry (`push`/`pop` work
on the end of the JS array). -/
structure Interner where
  currentID : Nat
  strings : String → Option Nat
  numbers : Int → Option Nat
  IDs : Nat → Option RawValue
  IDRefCount : Nat → Option Int
  IDFreeList : List Nat

def emptyInterner : Interner :=
  { currentID := 0
    strings := fun _ => none
    numbers := fun _ => none
    IDs := fun _ => none
    IDRefCount := fun _ => none
    IDFreeList := [] }

/-- Dictionary lookup; dispatches on the runtime type test `isNumber`. -/
def Interner.lookupVal (s : Interner) : RawValue → Option Nat
  | .str t => s.strings t
  | .num n => s.numbers n

/-- Dictionary write; dispatches on the runtime type test `isNumber`. -/
def Interner.setColl (s : Interner) (v : RawValue) (idOpt : Option Nat) : Interner :=
  match v with
  | .str t => { s with strings := updf s.strings t idOpt }
  | .num n => { s with numbers := updf s.numbers n idOpt }

/-- `_getFreeID`: `this.IDFreeList.pop() || this.currentID++`.  A popped
ID of `0` is falsy in JS, so it is discarded and a fresh counter value is
allocated instead. -/
def Interner._getFreeID (s : Interner) : Nat × Interner :=
  match s.IDFreeList with
  | [] => (s.currentID, { s with currentID := s.currentID + 1 })
  | id :: rest =>
    if id = 0 then
      (s.currentID, { s with currentID := s.currentID + 1, IDFreeList := rest })
    else
      (id, { s with IDFreeList := rest })

/-- `this.IDRefCount[found]++` on an `Option Int` slot (`none` models a
JS `undefined` slot, whose increment stays non-numeric). -/
def bumpRefCount : Option Int → Option Int
  | some rc => some (rc + 1)
  | none => none

/-- `intern(value)`: return the existing ID (bumping its refcount) or
allocate one, record both directions of the mapping and set refcount 1. -/
def Interner.intern (s : Interner) (v : RawValue) : Nat × Interner :=
  match s.lookupVal v with
  | some found =>
    (found, { s with IDRefCount := updf s.IDRefCount found (bumpRefCount (s.IDRefCount found)) })
  | none =>
    let p := s._getFreeID
    let s2 := p.2.setColl v (some p.1)
    (p.1, { s2 with IDs := updf s2.IDs p.1 (some v),
                    IDRefCount := updf s2.IDRefCount p.1 (some 1) })

/-- `get(value)`: lookup-only, no refcount. -/
def Interner.get (s : Interner) (v : RawValue) : Option Nat :=
  s.lookupVal v

/-- `reverse(id)`: from an ID to the RawValue (JS `undefined` becomes
`none`). -/
def Interner.reverse (s : Interner) (id : Nat) : Option RawValue :=
  s.IDs id

/-- `release(id)`: decrement the refcount; at a falsy refcount reclaim
the ID, clearing both maps and pushing it on the free list.  A JS
decrement of an `undefined` refcount is `NaN` (falsy), modelled by
`none`; in that branch `coll[value]` for the `undefined` value writes
the string key `"undefined"`. -/
def Interner.release (s : Interner) (id : Nat) : Interner :=
  let rcOpt : Option Int :=
    match s.IDRefCount id with
    | some rc => some (rc - 1)
    | none => none
  let s1 := { s with IDRefCount := updf s.IDRefCount id rcOpt }
  let falsy : Bool := match rcOpt with
    | some rc => rc = 0
    | none => true
  if falsy then
    let s2 := match s1.IDs id with
      | some v => s1.setColl v none
      | none => { s1 with strings := updf s1.strings "undefined" none }
    { s2 with IDs := updf s2.IDs id none, IDFreeList := id :: s2.IDFreeList }
  else s1

/-- Well-formedness of an interner state: the dictionaries and the
reverse array agree in both directions, every live ID is below the
allocation counter, and free-list entries are dead, in range and not
duplicated. -/
structure Interner.WF (s : Interner) : Prop where
  lookup_IDs : ∀ v id, s.lookupVal v = some id → s.IDs id = some v
  IDs_lookup : ∀ id v, s.IDs id = some v → s.lookupVal v = some id
  lt_current : ∀ id v, s.IDs id = some v → id < s.currentID
  free_dead : ∀ id ∈ s.IDFreeList, s.IDs id = none ∧ id < s.currentID
  nodup_free : s.IDFreeList.Nodup

theorem emptyInterner_WF : Interner.WF emptyInterner := by
  constructor <;> simp [emptyInterner, Interner.lookupVal]
  rintro (t | n) id <;> simp

theorem getFreeID_nil (s : Interner) (h : s.IDFreeList = []) :
    s._getFreeID = (s.currentID, { s with currentID := s.currentID + 1 }) := by
  unfold Interner._getFreeID
  rw [h]

theorem getFreeID_zero (s : Interner) (id : Nat) (rest : List Nat)
    (h : s.IDFreeList = id :: rest) (h0 : id = 0) :
    s._getFreeID = (s.currentID,
      { s with currentID := s.currentID + 1, IDFreeList := rest }) := by
  unfold Interner._getFreeID
  rw [h]
  simp [h0]

theorem getFreeID_pos (s : Interner) (id : Nat) (rest : List Nat)
    (h : s.IDFreeList = id :: rest) (h0 : id ≠ 0) :
    s._getFreeID = (id, { s with IDFreeList := rest }) := by
  unfold Interner._getFreeID
  rw [h]
  simp [h0]

theorem getFreeID_spec (s : Interner) (wf : s.WF) :
    (s._getFreeID).2.IDs = s.IDs ∧
    (s._getFreeID).2.strings = s.strings ∧
    (s._getFreeID).2.numbers = s.numbers ∧
    (s._getFreeID).2.IDRefCount = s.IDRefCount ∧
    s.IDs (s._getFreeID).1 = none ∧
    (s._getFreeID).1 < (s._getFreeID).2.currentID ∧
    (∀ j v, s.IDs j = some v → j < (s._getFreeID).2.currentID) ∧
    (∀ id ∈ (s._getFreeID).2.IDFreeList,
        s.IDs id = none ∧ id < (s._getFreeID).2.currentID) ∧
    (s._getFreeID).2.IDFreeList.Nodup ∧
    (s._getFreeID).1 ∉ (s._getFreeID).2.IDFreeList := by
  have hIDs_current : s.IDs s.currentID = none := by
    cases h : s.IDs s.currentID with
    | none => rfl
    | some v => exact absurd (wf.lt_current _ _ h) (lt_irrefl _)
  rcases hfl : s.IDFreeList with _ | ⟨id, rest⟩
  · rw [getFreeID_nil s hfl]
    refine ⟨rfl, rfl, rfl, rfl, hIDs_current, Nat.lt_succ_self _, ?_, ?_, ?_, ?_⟩
    · intro j v hj; exact Nat.lt_succ_of_lt (wf.lt_current _ _ hj)
    · intro i hi
      simp only [hfl] at hi
      exact absurd hi (List.not_mem_nil _)
    · simp [hfl]
    · simp [hfl]
  · have hnd := wf.nodup_free
    rw [hfl] at hnd
    by_cases h0 : id = 0
    · rw [getFreeID_zero s id rest hfl h0]
      refine ⟨rfl, rfl, rfl, rfl, hIDs_current, Nat.lt_succ_self _, ?_, ?_, ?_, ?_⟩
      · intro j v hj; exact Nat.lt_succ_of_lt (wf.lt_current _ _ hj)
      · intro i hi
        have := wf.free_dead i (by rw [hfl]; exact List.mem_cons_of_mem _ hi)
        exact ⟨this.1, Nat.lt_succ_of_lt this.2⟩
      · exact (List.nodup_cons.mp hnd).2
      · intro hmem
        have := wf.free_dead s.currentID
          (by rw [hfl]; exact List.mem_cons_of_mem _ hmem)
        exact absurd this.2 (lt_irrefl _)
    · rw [getFreeID_pos s id rest hfl h0]
      have hmem : id ∈ s.IDFreeList := by rw [hfl]; exact List.mem_cons_self _ _
      have hd := wf.free_dead id hmem
      refine ⟨rfl, rfl, rfl, rfl, hd.1, hd.2, ?_, ?_, ?_, ?_⟩
      · intro j v hj; exact wf.lt_current _ _ hj
      · intro i hi
        exact wf.free_dead i (by rw [hfl]; exact List.mem_cons_of_mem _ hi)
      · exact (List.nodup_cons.mp hnd).2
      · exact (List.nodup_cons.mp hnd).1

theorem intern_found_eq (s : Interner) (v : RawValue) (found : Nat)
    (h : s.lookupVal v = some found) :
    s.intern v = (found,
      { s with IDRefCount := updf s.IDRefCount found (bumpRefCount (s.IDRefCount found)) }) := by
  unfold Interner.intern
  rw [h]

theorem intern_new_eq (s : Interner) (v : RawValue)
    (h : s.lookupVal v = none) :
    s.intern v = ((s._getFreeID).1,
      { ((s._getFreeID).2.setColl v (some (s._getFreeID).1)) with
        IDs := updf ((s._getFreeID).2.setColl v (some (s._getFreeID).1)).IDs
          (s._getFreeID).1 (some v),
        IDRefCount :=
          updf ((s._getFreeID).2.setColl v (some (s._getFreeID).1)).IDRefCount
            (s._getFreeID).1 (some 1) }) := by
  unfold Interner.intern
  rw [h]

theorem setColl_fields (s : Interner) (v : RawValue) (o : Option Nat) :
    (s.setColl v o).IDs = s.IDs ∧ (s.setColl v o).currentID = s.currentID ∧
      (s.setColl v o).IDFreeList = s.IDFreeList ∧
      (s.setColl v o).IDRefCount = s.IDRefCount := by
  cases v <;> simp [Interner.setColl]

theorem lookupVal_setColl (s : Interner) (v : RawValue) (o : Option Nat)
    (w : RawValue) :
    (s.setColl v o).lookupVal w = if w = v then o else s.lookupVal w := by
  cases v <;> cases w <;>
    simp [Interner.setColl, Interner.lookupVal, updf]

theorem lookupVal_congr (a b : Interner) (hs : a.strings = b.strings)
    (hn : a.numbers = b.numbers) (w : RawValue) :
    a.lookupVal w = b.lookupVal w := by
  cases w <;> simp [Interner.lookupVal, hs, hn]

theorem intern_IDs_self (s : Interner) (v : RawValue) (wf : s.WF) :
    (s.intern v).2.IDs (s.intern v).1 = some v := by
  cases hl : s.lookupVal v with
  | some found =>
    rw [intern_found_eq s v found hl]
    exact wf.lookup_IDs v found hl
  | none =>
    rw [intern_new_eq s v hl]
    simp only [(setColl_fields _ v _).1, updf_same]

theorem intern_preserve (s : Interner) (v : RawValue) (j : Nat) (w : RawValue)
    (wf : s.WF) (h : s.IDs j = some w) : (s.intern v).2.IDs j = some w := by
  cases hl : s.lookupVal v with
  | some found =>
    rw [intern_found_eq s v found hl]
    exact h
  | none =>
    rw [intern_new_eq s v hl]
    obtain ⟨hIDs, -, -, -, hdead, -, -, -, -, -⟩ := getFreeID_spec s wf
    simp only [(setColl_fields _ v _).1, hIDs]
    have hne : j ≠ (s._getFreeID).1 := by
      intro he
      rw [he, hdead] at h
      exact Option.noConfusion h
    rw [updf_other _ _ _ _ hne]
    exact h

theorem intern_fst_of_IDs (s : Interner) (v : RawValue) (j : Nat)
    (wf : s.WF) (h : s.IDs j = some v) : (s.intern v).1 = j := by
  have hl : s.lookupVal v = some j := wf.IDs_lookup j v h
  rw [intern_found_eq s v j hl]

theorem intern_WF (s : Interner) (v : RawValue) (wf : s.WF) :
    (s.intern v).2.WF := by
  cases hl : s.lookupVal v with
  | some found =>
    rw [intern_found_eq s v found hl]
    exact ⟨wf.lookup_IDs, wf.IDs_lookup, wf.lt_current, wf.free_dead, wf.nodup_free⟩
  | none =>
    rw [intern_new_eq s v hl]
    obtain ⟨hIDs, hstr, hnum, -, hdead, hlt, hltall, hfree, hnodup, hnotmem⟩ :=
      getFreeID_spec s wf
    have hXs : ((s._getFreeID).2.setColl v (some (s._getFreeID).1)).IDs = s.IDs := by
      rw [(setColl_fields _ _ _).1, hIDs]
    have hXc : ((s._getFreeID).2.setColl v (some (s._getFreeID).1)).currentID
        = (s._getFreeID).2.currentID := (setColl_fields _ _ _).2.1
    have hXf : ((s._getFreeID).2.setColl v (some (s._getFreeID).1)).IDFreeList
        = (s._getFreeID).2.IDFreeList := (setColl_fields _ _ _).2.2.1
    have hXlook : ∀ w,
        ((s._getFreeID).2.setColl v (some (s._getFreeID).1)).lookupVal w
          = if w = v then some (s._getFreeID).1 else s.lookupVal w := by
      intro w
      rw [lookupVal_setColl, lookupVal_congr (s._getFreeID).2 s hstr hnum]
    have hNlook : ∀ w,
        ({ (s._getFreeID).2.setColl v (some (s._getFreeID).1) with
            IDs := updf ((s._getFreeID).2.setColl v (some (s._getFreeID).1)).IDs
              (s._getFreeID).1 (some v),
            IDRefCount :=
              updf ((s._getFreeID).2.setColl v (some (s._getFreeID).1)).IDRefCount
                (s._getFreeID).1 (some 1) } : Interner).lookupVal w
          = if w = v then some (s._getFreeID).1 else s.lookupVal w :=
      fun w => (lookupVal_congr _ _ rfl rfl w).trans (hXlook w)
    constructor
    · intro w id hw
      rw [hNlook w] at hw
      show updf ((s._getFreeID).2.setColl v (some (s._getFreeID).1)).IDs
        (s._getFreeID).1 (some v) id = some w
      by_cases hwv : w = v
      · subst hwv
        rw [if_pos rfl] at hw
        obtain rfl : (s._getFreeID).1 = id := Option.some.inj hw
        rw [updf_same]
      · rw [if_neg hwv] at hw
        have hid : s.IDs id = some w := wf.lookup_IDs w id hw
        have hne : id ≠ (s._getFreeID).1 := by
          intro he
          rw [he, hdead] at hid
          exact Option.noConfusion hid
        rw [updf_other _ _ _ _ hne, hXs]
        exact hid
    · intro id w hid
      replace hid : updf ((s._getFreeID).2.setColl v (some (s._getFreeID).1)).IDs
          (s._getFreeID).1 (some v) id = some w := hid
      rw [hNlook w]
      by_cases hne : id = (s._getFreeID).1
      · subst hne
        rw [updf_same] at hid
        obtain rfl : v = w := Option.some.inj hid
        rw [if_pos rfl]
      · rw [updf_other _ _ _ _ hne, hXs] at hid
        have hl2 : s.lookupVal w = some id := wf.IDs_lookup id w hid
        have hwv : w ≠ v := by
          intro he
          rw [he, hl] at hl2
          exact Option.noConfusion hl2
        rw [if_neg hwv]
        exact hl2
    · intro id w hid
      replace hid : updf ((s._getFreeID).2.setColl v (some (s._getFreeID).1)).IDs
          (s._getFreeID).1 (some v) id = some w := hid
      show id < ((s._getFreeID).2.setColl v (some (s._getFreeID).1)).currentID
      rw [hXc]
      by_cases hne : id = (s._getFreeID).1
      · subst hne
        exact hlt
      · rw [updf_other _ _ _ _ hne, hXs] at hid
        exact hltall id w hid
    · intro id hmem
      replace hmem : id ∈ (s._getFreeID).2.IDFreeList := hXf ▸ hmem
      have hd := hfree id hmem
      have hne : id ≠ (s._getFreeID).1 := by
        intro he
        exact hnotmem (he ▸ hmem)
      constructor
      · show updf ((s._getFreeID).2.setColl v (some (s._getFreeID).1)).IDs
          (s._getFreeID).1 (some v) id = none
        rw [updf_other _ _ _ _ hne, hXs]
        exact hd.1
      · show id < ((s._getFreeID).2.setColl v (some (s._getFreeID).1)).currentID
        rw [hXc]
        exact hd.2
    · show ((s._getFreeID).2.setColl v (some (s._getFreeID).1)).IDFreeList.Nodup
      rw [hXf]
      exact hnodup

/-- C3: for every raw value (string or finite number),
`reverse(intern(v)) = v` while the ID is live, and
`intern(v1) = intern(v2) ⟺ v1 = v2`; numbers and strings are distinct
`RawValue`s (separate dictionaries), so the string spelling of a number
never receives the number's ID.  Stated over any well-formed interner
state, for the two IDs handed out by interning `v1` and then `v2`. -/
theorem c3_interner_roundtrip (s : Interner) (wf : s.WF) (v1 v2 : RawValue) :
    ((s.intern v1).2.intern v2).2.reverse (s.intern v1).1 = some v1
    ∧ ((s.intern v1).2.intern v2).2.reverse ((s.intern v1).2.intern v2).1 = some v2
    ∧ ((s.intern v1).1 = ((s.intern v1).2.intern v2).1 ↔ v1 = v2) := by
  have wf1 := intern_WF s v1 wf
  have h1 : (s.intern v1).2.IDs (s.intern v1).1 = some v1 := intern_IDs_self s v1 wf
  have h1' : ((s.intern v1).2.intern v2).2.IDs (s.intern v1).1 = some v1 :=
    intern_preserve _ v2 _ v1 wf1 h1
  have h2 : ((s.intern v1).2.intern v2).2.IDs ((s.intern v1).2.intern v2).1 = some v2 :=
    intern_IDs_self _ v2 wf1
  refine ⟨h1', h2, ?_, ?_⟩
  · intro he
    rw [he] at h1'
    exact Option.some.inj (h1'.symm.trans h2)
  · intro he
    subst he
    exact (intern_fst_of_IDs _ v1 _ wf1 h1).symm

theorem c3_interner_roundtrip_witness :
    emptyInterner.WF ∧
      (((emptyInterner.intern (.str "1")).2.intern (.num 1)).2.reverse
          (emptyInterner.intern (.str "1")).1 = some (.str "1")
        ∧ ((emptyInterner.intern (.str "1")).2.intern (.num 1)).2.reverse
          ((emptyInterner.intern (.str "1")).2.intern (.num 1)).1 = some (.num 1)
        ∧ ((emptyInterner.intern (.str "1")).1
            = ((emptyInterner.intern (.str "1")).2.intern (.num 1)).1
            ↔ (RawValue.str "1") = (RawValue.num 1))) :=
  ⟨emptyInterner_WF, c3_interner_roundtrip emptyInterner emptyInterner_WF _ _⟩

/-- C9 counterexample: the very first interned value receives ID `0`,
not a positive ID — `currentID` starts at 0 and `_getFreeID` returns
`currentID++` on an empty free list, so `intern` on a fresh interner
hands out 0, refuting `intern(v) > 0`. -/
theorem c9_first_id_zero :
    (emptyInterner.intern (.str "a")).1 = 0
    ∧ ¬ (0 < (emptyInterner.intern (.str "a")).1) := by
  constructor
  · rfl
  · intro h
    simp only [show (emptyInterner.intern (.str "a")).1 = 0 from rfl] at h
    exact absurd h (lt_irrefl 0)

/-- C9 amended: every ID the interner hands out is a dense
*non-negative* integer (the first ID is 0): on a well-formed state with
an empty free list whose live IDs are exactly `{0, …, currentID−1}`,
`intern` returns an ID below the updated `currentID` and the live IDs
stay exactly the initial segment `{0, …, currentID′−1}`. -/
theorem c9_ids_dense_amended (s : Interner) (wf : s.WF)
    (hfree : s.IDFreeList = [])
    (hdense : ∀ i, ((s.IDs i).isSome ↔ i < s.currentID)) (v : RawValue) :
    (s.intern v).1 < (s.intern v).2.currentID
    ∧ ∀ i, (((s.intern v).2.IDs i).isSome ↔ i < (s.intern v).2.currentID) := by
  cases hl : s.lookupVal v with
  | some found =>
    rw [intern_found_eq s v found hl]
    exact ⟨wf.lt_current found v (wf.lookup_IDs v found hl), hdense⟩
  | none =>
    rw [intern_new_eq s v hl]
    rw [getFreeID_nil s hfree]
    have hIDs : (({ s with currentID := s.currentID + 1 } : Interner).setColl v
        (some s.currentID)).IDs = s.IDs := (setColl_fields _ _ _).1
    have hcur : (({ s with currentID := s.currentID + 1 } : Interner).setColl v
        (some s.currentID)).currentID = s.currentID + 1 := (setColl_fields _ _ _).2.1
    constructor
    · show s.currentID < (({ s with currentID := s.currentID + 1 } : Interner).setColl v
        (some s.currentID)).currentID
      rw [hcur]
      exact Nat.lt_succ_self _
    · intro i
      show (updf (({ s with currentID := s.currentID + 1 } : Interner).setColl v
          (some s.currentID)).IDs s.currentID (some v) i).isSome
        ↔ i < (({ s with currentID := s.currentID + 1 } : Interner).setColl v
          (some s.currentID)).currentID
      rw [hcur, hIDs]
      by_cases hi : i = s.currentID
      · subst hi
        rw [updf_same]
        simp [Nat.lt_succ_self]
      · rw [updf_other _ _ _ _ hi]
        rw [hdense i]
        omega

theorem c9_ids_dense_amended_witness :
    emptyInterner.WF ∧ emptyInterner.IDFreeList = []
    ∧ (∀ i, ((emptyInterner.IDs i).isSome ↔ i < emptyInterner.currentID))
    ∧ ((emptyInterner.intern (.num 7)).1 < (emptyInterner.intern (.num 7)).2.currentID
        ∧ ∀ i, (((emptyInterner.intern (.num 7)).2.IDs i).isSome
            ↔ i < (emptyInterner.intern (.num 7)).2.currentID)) :=
  ⟨emptyInterner_WF, rfl, fun i => by simp [emptyInterner],
    c9_ids_dense_amended emptyInterner emptyInterner_WF rfl
      (fun i => by simp [emptyInterner]) _⟩

/-! ## Output nodes

`InsertNode` (and its subclasses `CommitInsertNode`, `RemoveNode`,
`CommitRemoveNode`) resolve their four `ScanField`s against the current
prefix and emit a single change.  A prefix is modelled by its register
slots (`Nat → Option Nat`, `none` = JS `undefined`) together with its
round and count columns. -/

/-- A scan field: a static interned ID, a register, or the `IGNORE_REG`
(null) sentinel. -/
inductive ScanField where
  | sta (id : Nat)
  | reg (offset : Nat)
  | ignoreReg
deriving DecidableEq, Repr

/-- `resolved.f` after `resolve(prefix)`: a static ID resolves to itself
(and `IGNORE_REG`, which is `null`, stays null-like); a register reads
its prefix slot. -/
def resolveField : ScanField → (Nat → Option Nat) → Option Nat
  | .sta id, _ => some id
  | .reg o, regs => regs o
  | .ignoreReg, _ => none

/-- `resolved.f === undefined`: static IDs and the `null` sentinel are
never `undefined`; a register field is `undefined` exactly when its
prefix slot is unbound. -/
def fieldUndef : ScanField → (Nat → Option Nat) → Bool
  | .sta _, _ => false
  | .reg o, regs => (regs o).isNone
  | .ignoreReg, _ => false

/-- The runtime subclass of an emitted change (`Change`,
`RemoveChange`, `RemoveVsChange`, `RemoveAVsChange`). -/
inductive ChangeKind where
  | change
  | removeChange
  | removeVsChange
  | removeAVsChange
deriving DecidableEq, Repr

/-- An interned change.  Field values are `Option Nat` because the JS
code can put `null`/`undefined` slots into a change. -/
structure Change where
  e : Option Nat
  a : Option Nat
  v : Option Nat
  n : Option Nat
  transaction : Int
  round : Int
  count : Int
deriving DecidableEq, Repr

/-- An output node: four scan fields plus the multiplier (`+1` on
`InsertNode`/`CommitInsertNode`, `-1` on `RemoveNode`/
`CommitRemoveNode`). -/
structure InsertNode where
  e : ScanField
  a : ScanField
  v : ScanField
  n : ScanField
  multiplier : Int
deriving DecidableEq, Repr

/-- `InsertNode`/`CommitInsertNode` construction: multiplier `+1`. -/
def InsertNode.mkInsert (e a v n : ScanField) : InsertNode := ⟨e, a, v, n, 1⟩

/-- `RemoveNode`/`CommitRemoveNode` construction: multiplier `-1`. -/
def InsertNode.mkRemove (e a v n : ScanField) : InsertNode := ⟨e, a, v, n, -1⟩

/-- `InsertNode.exec` (also used by `CommitInsertNode`): throws when any
resolved slot is `undefined`, otherwise emits one change at
`round = prefixRound + 1` with `count = prefixCount * multiplier`. -/
def InsertNode.exec (node : InsertNode) (regs : Nat → Option Nat)
    (pfxRound pfxCount txnId : Int) : Except String (List (ChangeKind × Change)) :=
  if fieldUndef node.e regs || fieldUndef node.a regs
      || fieldUndef node.v regs || fieldUndef node.n regs then
    .error "Unable to produce an output with an undefined EAVN field"
  else
    .ok [(.change,
      ⟨resolveField node.e regs, resolveField node.a regs,
        resolveField node.v regs, resolveField node.n regs,
        txnId, pfxRound + 1, pfxCount * node.multiplier⟩)]

/-- `RemoveNode.exec` (also installed on `CommitRemoveNode` via
`_exec`): on any required `undefined` slot it returns `false` and emits
nothing (no exception!); otherwise it emits the kind-dispatched remove
change at `round = prefixRound + 1`, `count = prefixCount * multiplier`. -/
def RemoveNode.exec (node : InsertNode) (regs : Nat → Option Nat)
    (pfxRound pfxCount txnId : Int) :
    Except String (Bool × List (ChangeKind × Change)) :=
  if fieldUndef node.e regs || fieldUndef node.a regs
      || (fieldUndef node.v regs && !(node.v == ScanField.ignoreReg))
      || fieldUndef node.n regs then
    .ok (false, [])
  else
    let body : Change :=
      ⟨resolveField node.e regs, resolveField node.a regs,
        resolveField node.v regs, resolveField node.n regs,
        txnId, pfxRound + 1, pfxCount * node.multiplier⟩
    if !(node.v == ScanField.ignoreReg) then
      .ok (true, [(.removeChange, body)])
    else if !(node.a == ScanField.ignoreReg) then
      .ok (true, [(.removeVsChange, body)])
    else
      .ok (true, [(.removeAVsChange, body)])

/-- C6 counterexample: a `RemoveNode` whose `e` register is unbound in
the prefix does *not* raise an error fatal to the transaction — it
silently returns `false` and emits nothing, refuting the claim for the
remove and commit-remove output nodes. -/
theorem c6_remove_counterexample :
    RemoveNode.exec (InsertNode.mkRemove (.reg 0) (.sta 1) (.sta 2) (.sta 3))
        (fun _ => none) 0 1 0 = .ok (false, [])
    ∧ ∀ msg, RemoveNode.exec (InsertNode.mkRemove (.reg 0) (.sta 1) (.sta 2) (.sta 3))
        (fun _ => none) 0 1 0 ≠ .error msg := by
  refine ⟨rfl, ?_⟩
  intro msg h
  rw [show RemoveNode.exec (InsertNode.mkRemove (.reg 0) (.sta 1) (.sta 2) (.sta 3))
        (fun _ => none) 0 1 0 = .ok (false, []) from rfl] at h
  exact Except.noConfusion h

/-- C6 amended: only the insert and commit-insert output nodes raise a
transaction-fatal error on an `undefined` resolved slot; the remove and
commit-remove output nodes return `false` and emit no change, without
raising. -/
theorem c6_output_undefined_amended :
    (∀ (node : InsertNode) (regs : Nat → Option Nat) (pr pc txn : Int),
      (fieldUndef node.e regs || fieldUndef node.a regs
        || fieldUndef node.v regs || fieldUndef node.n regs) = true →
      node.exec regs pr pc txn
        = .error "Unable to produce an output with an undefined EAVN field")
    ∧ (∀ (node : InsertNode) (regs : Nat → Option Nat) (pr pc txn : Int),
      (fieldUndef node.e regs || fieldUndef node.a regs
        || (fieldUndef node.v regs && !(node.v == ScanField.ignoreReg))
        || fieldUndef node.n regs) = true →
      RemoveNode.exec node regs pr pc txn = .ok (false, [])) := by
  constructor
  · intro node regs pr pc txn h
    unfold InsertNode.exec
    rw [if_pos h]
  · intro node regs pr pc txn h
    unfold RemoveNode.exec
    rw [if_pos h]

theorem c6_output_undefined_amended_witness :
    ((fieldUndef (ScanField.reg 0) (fun _ => none)
        || fieldUndef (ScanField.sta 1) (fun _ => none)
        || fieldUndef (ScanField.sta 2) (fun _ => none)
        || fieldUndef (ScanField.sta 3) (fun _ => none)) = true
      ∧ (InsertNode.mkInsert (.reg 0) (.sta 1) (.sta 2) (.sta 3)).exec
          (fun _ => none) 0 1 0
        = .error "Unable to produce an output with an undefined EAVN field")
    ∧ ((fieldUndef (ScanField.reg 0) (fun _ => none)
        || fieldUndef (ScanField.sta 1) (fun _ => none)
        || (fieldUndef (ScanField.sta 2) (fun _ => none)
            && !((ScanField.sta 2) == ScanField.ignoreReg))
        || fieldUndef (ScanField.sta 3) (fun _ => none)) = true
      ∧ RemoveNode.exec (InsertNode.mkRemove (.reg 0) (.sta 1) (.sta 2) (.sta 3))
          (fun _ => none) 0 1 0 = .ok (false, [])) :=
  ⟨⟨by decide,
    c6_output_undefined_amended.1
      (InsertNode.mkInsert (.reg 0) (.sta 1) (.sta 2) (.sta 3))
      (fun _ => none) 0 1 0 (by decide)⟩,
   ⟨by decide,
    c6_output_undefined_amended.2
      (InsertNode.mkRemove (.reg 0) (.sta 1) (.sta 2) (.sta 3))
      (fun _ => none) 0 1 0 (by decide)⟩⟩

/-- C10: every change emitted by an insert / commit-insert / remove /
commit-remove output node carries `round = prefixRound + 1` and
`count = prefixCount * multiplier` with multiplier `+1` for the insert
nodes and `-1` for the remove nodes. -/
theorem c10_output_round_count :
    (∀ (e a v n : ScanField) (regs : Nat → Option Nat) (pr pc txn : Int)
        (l : List (ChangeKind × Change)),
      (InsertNode.mkInsert e a v n).exec regs pr pc txn = .ok l →
      ∀ kc ∈ l, kc.2.round = pr + 1 ∧ kc.2.count = pc * 1)
    ∧ (∀ (e a v n : ScanField) (regs : Nat → Option Nat) (pr pc txn : Int)
        (b : Bool) (l : List (ChangeKind × Change)),
      RemoveNode.exec (InsertNode.mkRemove e a v n) regs pr pc txn = .ok (b, l) →
      ∀ kc ∈ l, kc.2.round = pr + 1 ∧ kc.2.count = pc * (-1)) := by
  constructor
  · intro e a v n regs pr pc txn l h kc hkc
    unfold InsertNode.exec at h
    split at h
    · exact Except.noConfusion h
    · obtain rfl : _ = l := Except.ok.inj h
      simp only [List.mem_singleton] at hkc
      subst hkc
      exact ⟨rfl, rfl⟩
  · intro e a v n regs pr pc txn b l h kc hkc
    unfold RemoveNode.exec at h
    split at h
    · obtain ⟨-, rfl⟩ := Prod.mk.injEq _ _ _ _ ▸ Prod.mk.inj (Except.ok.inj h)
      exact absurd hkc (List.not_mem_nil _)
    · split at h
      · obtain ⟨-, rfl⟩ := Prod.mk.injEq _ _ _ _ ▸ Prod.mk.inj (Except.ok.inj h)
        simp only [List.mem_singleton] at hkc
        subst hkc
        exact ⟨rfl, rfl⟩
      · split at h
        · obtain ⟨-, rfl⟩ := Prod.mk.injEq _ _ _ _ ▸ Prod.mk.inj (Except.ok.inj h)
          simp only [List.mem_singleton] at hkc
          subst hkc
          exact ⟨rfl, rfl⟩
        · obtain ⟨-, rfl⟩ := Prod.mk.injEq _ _ _ _ ▸ Prod.mk.inj (Except.ok.inj h)
          simp only [List.mem_singleton] at hkc
          subst hkc
          exact ⟨rfl, rfl⟩

theorem c10_output_round_count_witness :
    ((InsertNode.mkInsert (.sta 1) (.sta 2) (.sta 3) (.sta 4)).exec
        (fun _ => none) 0 1 0
      = .ok [(.change, ⟨some 1, some 2, some 3, some 4, 0, 0 + 1, 1 * 1⟩)])
    ∧ (∀ kc ∈ [((ChangeKind.change),
          (⟨some 1, some 2, some 3, some 4, 0, 0 + 1, 1 * 1⟩ : Change))],
        kc.2.round = 0 + 1 ∧ kc.2.count = 1 * 1) :=
  ⟨rfl, c10_output_round_count.1 (.sta 1) (.sta 2) (.sta 3) (.sta 4)
    (fun _ => none) 0 1 0 _ rfl⟩

/-! ## Export collapse (`Transaction.exec`, export phase)

Exported changes are collapsed per block with `collapseMultiplicity`
(sort by `(e,a,v)`, merge adjacent equal keys, drop zero totals), then
run against the running count `context.exportIndex[beav]` with
`beav = blockId|e|a|v`.  The numeric string key is modelled as the
tuple `(blockId, e, a, v)`. -/

/-- A collapsed raw export entry. -/
structure ExportChange where
  e : Nat
  a : Nat
  v : Nat
  n : Nat
  count : Int
deriving DecidableEq, Repr

/-- Comparator order of the `collapseMultiplicity` sort: by `e`, then
`a`, then `v`. -/
def expLe (x y : ExportChange) : Bool :=
  decide (x.e < y.e ∨ (x.e = y.e ∧ (x.a < y.a ∨ (x.a = y.a ∧ x.v ≤ y.v))))

def insertSorted (c : ExportChange) : List ExportChange → List ExportChange
  | [] => [c]
  | d :: rest => if expLe c d then c :: d :: rest else d :: insertSorted c rest

def sortChanges (l : List ExportChange) : List ExportChange :=
  l.foldr insertSorted []

def sameEAV (x y : ExportChange) : Bool :=
  x.e == y.e && x.a == y.a && x.v == y.v

/-- Merge runs of adjacent changes with equal `(e,a,v)` into one entry
holding the summed count, dropping entries whose total is zero. -/
def mergeAdjacent : List ExportChange → List ExportChange
  | [] => []
  | c :: rest =>
    (if c.count + ((rest.takeWhile (sameEAV c)).map ExportChange.count).sum ≠ 0
      then [{ c with
        count := c.count + ((rest.takeWhile (sameEAV c)).map ExportChange.count).sum }]
      else [])
      ++ mergeAdjacent (rest.drop (rest.takeWhile (sameEAV c)).length)
termination_by l => l.length
decreasing_by
  simp only [List.length_cons, List.length_drop]
  omega

/-- `Transaction.collapseMultiplicity`: sort by `(e,a,v)` and collapse
multiplicities of equal keys. -/
def collapseMultiplicity (l : List ExportChange) : List ExportChange :=
  mergeAdjacent (sortChanges l)

/-- One step of the export loop: bump the running count for
`(blockId, e, a, v)` and emit `+1` on a 0→positive transition, `-1` on
a positive→0 transition, nothing otherwise. -/
def exportStep (idx : Nat × Nat × Nat × Nat → Int) (blockId : Nat)
    (c : ExportChange) : ((Nat × Nat × Nat × Nat → Int) × Option Int) :=
  let beav := (blockId, c.e, c.a, c.v)
  let old := idx beav
  let neue := old + c.count
  let delta : Int := if old = 0 ∧ 0 < neue then 1
    else if 0 < old ∧ neue = 0 then -1
    else 0
  (updf idx beav neue, if delta = 0 then none else some delta)

/-- The export loop over one block's collapsed changes, threading the
persistent `exportIndex`. -/
def exportRun (idx : Nat × Nat × Nat × Nat → Int) (blockId : Nat) :
    List ExportChange → ((Nat × Nat × Nat × Nat → Int) × List Int)
  | [] => (idx, [])
  | c :: rest =>
    let p := exportStep idx blockId c
    let q := exportRun p.1 blockId rest
    (q.1, match p.2 with
          | some x => x :: q.2
          | none => q.2)

/-- C2: the export phase collapses multiplicity per `(blockId, e, a, v)`
key against the running count persisted in the evaluation context:
`+1` is emitted exactly on a 0→positive transition of the running
count, `-1` exactly on a positive→0 transition and nothing otherwise —
in particular a negative running count emits nothing, also when it
later returns to 0 or above; the running count is always advanced by
the change's count, and every emitted delta of a run is `±1`. -/
theorem c2_export_collapse :
    (∀ (idx : Nat × Nat × Nat × Nat → Int) (blockId : Nat) (c : ExportChange),
      ((exportStep idx blockId c).2 = some 1
        ↔ (idx (blockId, c.e, c.a, c.v) = 0 ∧ 0 < idx (blockId, c.e, c.a, c.v) + c.count))
      ∧ ((exportStep idx blockId c).2 = some (-1)
        ↔ (0 < idx (blockId, c.e, c.a, c.v) ∧ idx (blockId, c.e, c.a, c.v) + c.count = 0))
      ∧ (idx (blockId, c.e, c.a, c.v) < 0 → (exportStep idx blockId c).2 = none)
      ∧ (exportStep idx blockId c).1 (blockId, c.e, c.a, c.v)
          = idx (blockId, c.e, c.a, c.v) + c.count
      ∧ (∀ k, k ≠ (blockId, c.e, c.a, c.v) → (exportStep idx blockId c).1 k = idx k))
    ∧ (∀ (idx : Nat × Nat × Nat × Nat → Int) (blockId : Nat)
        (cs : List ExportChange) (d : Int),
      d ∈ (exportRun idx blockId cs).2 → d = 1 ∨ d = -1) := by
  have hstep : ∀ (idx : Nat × Nat × Nat × Nat → Int) (blockId : Nat)
      (c : ExportChange) (d : Int),
      (exportStep idx blockId c).2 = some d → d = 1 ∨ d = -1 := by
    intro idx blockId c d h
    by_cases h1 : idx (blockId, c.e, c.a, c.v) = 0
        ∧ 0 < idx (blockId, c.e, c.a, c.v) + c.count
    · simp only [exportStep, h1, if_true, if_pos] at h
      simp at h
      omega
    · by_cases h2 : 0 < idx (blockId, c.e, c.a, c.v)
          ∧ idx (blockId, c.e, c.a, c.v) + c.count = 0
      · simp only [exportStep, if_neg h1, if_pos h2] at h
        simp at h
        omega
      · simp only [exportStep, if_neg h1, if_neg h2] at h
        simp at h
  constructor
  · intro idx blockId c
    refine ⟨?_, ?_, ?_, ?_, ?_⟩
    · by_cases h1 : idx (blockId, c.e, c.a, c.v) = 0
          ∧ 0 < idx (blockId, c.e, c.a, c.v) + c.count
      · simp [exportStep, h1]
      · by_cases h2 : 0 < idx (blockId, c.e, c.a, c.v)
            ∧ idx (blockId, c.e, c.a, c.v) + c.count = 0
        · simp [exportStep, if_neg h1, h2]
        · simp [exportStep, if_neg h1, if_neg h2]
          omega
    · by_cases h1 : idx (blockId, c.e, c.a, c.v) = 0
          ∧ 0 < idx (blockId, c.e, c.a, c.v) + c.count
      · simp [exportStep, h1]
        omega
      · by_cases h2 : 0 < idx (blockId, c.e, c.a, c.v)
            ∧ idx (blockId, c.e, c.a, c.v) + c.count = 0
        · simp [exportStep, if_neg h1, h2]
        · simp [exportStep, if_neg h1, if_neg h2]
          omega
    · intro hneg
      have h1 : ¬(idx (blockId, c.e, c.a, c.v) = 0
          ∧ 0 < idx (blockId, c.e, c.a, c.v) + c.count) := by omega
      have h2 : ¬(0 < idx (blockId, c.e, c.a, c.v)
          ∧ idx (blockId, c.e, c.a, c.v) + c.count = 0) := by omega
      simp [exportStep, if_neg h1, if_neg h2]
    · simp only [exportStep]
      rw [updf_same]
    · intro k hk
      simp only [exportStep]
      rw [updf_other _ _ _ _ hk]
  · intro idx blockId cs
    induction cs generalizing idx with
    | nil => intro d h; exact absurd h (List.not_mem_nil _)
    | cons c rest ih =>
      intro d h
      unfold exportRun at h
      dsimp only at h
      cases hp : (exportStep idx blockId c).2 with
      | none =>
        rw [hp] at h
        exact ih _ d h
      | some x =>
        rw [hp] at h
        rcases List.mem_cons.mp h with rfl | h'
        · exact hstep idx blockId c d hp
        · exact ih _ d h'

/-! ## Transaction main loop (`Transaction.exec`)

The loop walks `this.changes` by index; processing a change (blocks,
`index.insert`, `prepareRound`) may append further changes and may move
`this.round` (to the change's round, or to −1 on a new frame) — all of
that is abstracted into `step`, which returns the new driver state, the
changes appended by this iteration and the updated round.  `total` is
incremented first and the loop breaks as soon as it exceeds the
iteration limit 10000; a change opening an 11th frame also breaks. -/

/-- The body of `Transaction.exec`'s `while (changeIx < changes.length)`
loop, with `iterationLimit = 10000` and the 10-frame limit.  Returns the
final driver state and the number of changes fully processed.  The
definition is total — the recursion is well-founded on
`10001 - total` precisely because of the iteration-limit break, which is
the terminating behavior the claim asserts. -/
def execLoop {σ : Type} (step : σ → Change → σ × List Change × Int)
    (changes : List Change) (st : σ) (changeIx total frames : Nat) (round : Int) :
    σ × Nat :=
  if h : changeIx < changes.length then
    if h2 : 10000 < total + 1 then (st, 0)
    else if (changes.get ⟨changeIx, h⟩).round = 0 ∧ round ≠ 0 ∧ 10 < frames + 1 then
      (st, 0)
    else
      let frames' := if round ≠ 0 ∧ (changes.get ⟨changeIx, h⟩).round = 0
        then frames + 1 else frames
      let r := step st (changes.get ⟨changeIx, h⟩)
      let res := execLoop step (changes ++ r.2.1) r.1 (changeIx + 1) (total + 1)
        frames' r.2.2
      (res.1, res.2 + 1)
  else (st, 0)
termination_by 10001 - total
decreasing_by omega

/-- `Transaction.exec`'s loop from its initial state: `changeIx = 0`,
`total = 0`, `frames = 0`, `this.round = -1`. -/
def Transaction.execFrom {σ : Type} (step : σ → Change → σ × List Change × Int)
    (changes : List Change) (st : σ) : σ × Nat :=
  execLoop step changes st 0 0 0 (-1)

theorem execLoop_le {σ : Type} : ∀ (n : Nat)
    (step : σ → Change → σ × List Change × Int) (changes : List Change)
    (st : σ) (changeIx total frames : Nat) (round : Int),
    10001 - total ≤ n →
    (execLoop step changes st changeIx total frames round).2 ≤ 10000 - total := by
  intro n
  induction n with
  | zero =>
    intro step changes st changeIx total frames round hn
    rw [execLoop]
    split
    · split
      · simp
      · omega
    · simp
  | succ n ih =>
    intro step changes st changeIx total frames round hn
    rw [execLoop]
    split
    · split
      · simp
      · split
        · simp
        · rename_i h h2 h3
          have hb := ih step
            (changes ++ (step st (changes.get ⟨changeIx, h⟩)).2.1)
            (step st (changes.get ⟨changeIx, h⟩)).1
            (changeIx + 1) (total + 1)
            (if round ≠ 0 ∧ (changes.get ⟨changeIx, h⟩).round = 0
              then frames + 1 else frames)
            (step st (changes.get ⟨changeIx, h⟩)).2.2
            (by omega)
          dsimp only
          omega
    · simp

/-- C7: the main evaluation loop of a transaction fully processes at
most 10,000 input changes, whatever the blocks derive and append; the
loop is a total function (the iteration-limit break makes the recursion
well-founded), so `Transaction.exec` terminates on every input. -/
theorem c7_transaction_limit {σ : Type}
    (step : σ → Change → σ × List Change × Int) (changes : List Change) (st : σ) :
    (Transaction.execFrom step changes st).2 ≤ 10000 :=
  execLoop_le 10001 step changes st 0 0 0 (-1) (by omega)

/-! ## Generic Join proposal selection (`JoinNode.genericJoin`)

The proposal loop keeps the best (smallest-cardinality, non-skipped)
proposal seen so far, starting from `emptyProposal` (skip, cardinality
∞, modelled by the accumulator `none`), returns early with no results
when a non-skipped proposal with cardinality 0 appears, and bails when
everything was skipped.  Every candidate value the winner resolves is
emitted only if all other constraints accept it. -/

/-- A constraint's proposal, with its proposer identified by index. -/
structure Proposal where
  cardinality : Nat
  skip : Bool
  proposer : Nat
deriving DecidableEq, Repr

/-- `current.cardinality < bestProposal.cardinality` where the empty
initial best has cardinality `Infinity`. -/
def ltBest (c : Nat) : Option Proposal → Bool
  | none => true
  | some b => c < b.cardinality

/-- The `for (constraint of constraints)` proposal loop of
`genericJoin`: `none` means no proposal is resolved (all skipped, or an
early zero-cardinality return). -/
def pickBest : List Proposal → Option Proposal → Option Proposal
  | [], best => best
  | p :: rest, best =>
    if p.skip = false ∧ p.cardinality = 0 then none
    else if ltBest p.cardinality best ∧ p.skip = false then pickBest rest (some p)
    else pickBest rest best

/-- The candidate filter of the `resultLoop`: a resolved value is kept
(emitted / recursed on) iff every constraint other than the proposer
accepts it. -/
def acceptedValues (constraints : List Nat) (proposer : Nat)
    (accept : Nat → Nat → Bool) (resolved : List Nat) : List Nat :=
  resolved.filter (fun v => constraints.all (fun c => c == proposer || accept c v))

theorem pickBest_spec : ∀ (l : List Proposal) (best : Option Proposal)
    (p : Proposal), pickBest l best = some p →
    (∀ q ∈ l, q.skip = false → 0 < q.cardinality) ∧
    ((∃ l₁ l₂, l = l₁ ++ p :: l₂ ∧ p.skip = false
        ∧ ltBest p.cardinality best = true
        ∧ (∀ q ∈ l₁, q.skip = false → p.cardinality < q.cardinality)
        ∧ (∀ q ∈ l₂, q.skip = false → p.cardinality ≤ q.cardinality))
      ∨ (best = some p ∧ ∀ q ∈ l, q.skip = false → p.cardinality ≤ q.cardinality)) := by
  intro l
  induction l with
  | nil =>
    intro best p h
    refine ⟨by simp, Or.inr ⟨?_, by simp⟩⟩
    simpa [pickBest] using h
  | cons hd rest ih =>
    intro best p h
    rw [pickBest] at h
    split at h
    · exact absurd h (by simp)
    · rename_i hz
      split at h
      · rename_i hsel
        obtain ⟨hzero, hcases⟩ := ih (some hd) p h
        have hhd0 : 0 < hd.cardinality := by
          rcases Nat.eq_zero_or_pos hd.cardinality with h0 | h0
          · exact absurd ⟨hsel.2, h0⟩ hz
          · exact h0
        refine ⟨?_, ?_⟩
        · intro q hq hqs
          rcases List.mem_cons.mp hq with rfl | hq'
          · exact hhd0
          · exact hzero q hq' hqs
        · rcases hcases with ⟨l₁, l₂, rfl, hps, hlt, hl₁, hl₂⟩ | ⟨heq, hall⟩
          · refine Or.inl ⟨hd :: l₁, l₂, rfl, hps, ?_, ?_, hl₂⟩
            · cases best with
              | none => rfl
              | some b =>
                have h1 : p.cardinality < hd.cardinality := by
                  simpa [ltBest] using hlt
                have h2 : hd.cardinality < b.cardinality := by
                  simpa [ltBest] using hsel.1
                simpa [ltBest] using lt_trans h1 h2
            · intro q hq hqs
              rcases List.mem_cons.mp hq with rfl | hq'
              · simpa [ltBest] using hlt
              · exact hl₁ q hq' hqs
          · obtain rfl : hd = p := Option.some.inj heq
            exact Or.inl ⟨[], rest, rfl, hsel.2, hsel.1, by simp, hall⟩
      · rename_i hnsel
        obtain ⟨hzero, hcases⟩ := ih best p h
        have hhd : hd.skip = false → 0 < hd.cardinality := by
          intro hs
          rcases Nat.eq_zero_or_pos hd.cardinality with h0 | h0
          · exact absurd ⟨hs, h0⟩ hz
          · exact h0
        refine ⟨?_, ?_⟩
        · intro q hq hqs
          rcases List.mem_cons.mp hq with rfl | hq'
          · exact hhd hqs
          · exact hzero q hq' hqs
        · rcases hcases with ⟨l₁, l₂, rfl, hps, hlt, hl₁, hl₂⟩ | ⟨heq, hall⟩
          · refine Or.inl ⟨hd :: l₁, l₂, rfl, hps, hlt, ?_, hl₂⟩
            intro q hq hqs
            rcases List.mem_cons.mp hq with rfl | hq'
            · by_cases hb : ltBest q.cardinality best = true
              · exact absurd ⟨hb, hqs⟩ hnsel
              · cases best with
                | none => exact absurd rfl hb
                | some b =>
                  have h1 : b.cardinality ≤ q.cardinality := by
                    simpa [ltBest] using hb
                  have h2 : p.cardinality < b.cardinality := by
                    simpa [ltBest] using hlt
                  exact lt_of_lt_of_le h2 h1
            · exact hl₁ q hq' hqs
          · subst heq
            refine Or.inr ⟨rfl, ?_⟩
            intro q hq hqs
            rcases List.mem_cons.mp hq with rfl | hq'
            · by_cases hb : ltBest q.cardinality (some p) = true
              · exact absurd ⟨hb, hqs⟩ hnsel
              · simpa [ltBest] using hb
            · exact hall q hq' hqs

/-- C5: when the Generic Join step resolves a proposal, it is a
non-skipped one of minimum cardinality among all non-skipped proposals
(every non-skipped proposal then also has nonzero cardinality, or the
step would have returned early with no results); ties are broken in
favor of the first constraint in iteration order; and a resolved
candidate value is emitted exactly when every constraint other than the
proposer accepts it. -/
theorem c5_genericJoin_selection (props : List Proposal) (p : Proposal)
    (hp : pickBest props none = some p)
    (constraints : List Nat) (accept : Nat → Nat → Bool) (resolved : List Nat) :
    (p.skip = false
      ∧ (∀ q ∈ props, q.skip = false → p.cardinality ≤ q.cardinality)
      ∧ (∃ l₁ l₂, props = l₁ ++ p :: l₂
          ∧ ∀ q ∈ l₁, q.skip = false → p.cardinality < q.cardinality))
    ∧ (∀ v, v ∈ acceptedValues constraints p.proposer accept resolved
        ↔ (v ∈ resolved ∧ ∀ c ∈ constraints, c ≠ p.proposer → accept c v = true)) := by
  obtain ⟨hzero, hcases⟩ := pickBest_spec props none p hp
  have hmain : p.skip = false
      ∧ (∀ q ∈ props, q.skip = false → p.cardinality ≤ q.cardinality)
      ∧ (∃ l₁ l₂, props = l₁ ++ p :: l₂
          ∧ ∀ q ∈ l₁, q.skip = false → p.cardinality < q.cardinality) := by
    rcases hcases with ⟨l₁, l₂, rfl, hps, -, hl₁, hl₂⟩ | ⟨heq, -⟩
    · refine ⟨hps, ?_, l₁, l₂, rfl, hl₁⟩
      intro q hq hqs
      rcases List.mem_append.mp hq with hq' | hq'
      · exact le_of_lt (hl₁ q hq' hqs)
      · rcases List.mem_cons.mp hq' with rfl | hq''
        · exact le_refl _
        · exact hl₂ q hq'' hqs
    · exact absurd heq (by simp)
  refine ⟨hmain, ?_⟩
  intro v
  unfold acceptedValues
  rw [List.mem_filter]
  constructor
  · rintro ⟨hv, hall⟩
    refine ⟨hv, ?_⟩
    intro c hc hcp
    have := List.all_eq_true.mp hall c hc
    rcases Bool.or_eq_true_iff.mp this with heq | hacc
    · exact absurd (by simpa using heq) hcp
    · exact hacc
  · rintro ⟨hv, hall⟩
    refine ⟨hv, ?_⟩
    rw [List.all_eq_true]
    intro c hc
    by_cases hcp : c = p.proposer
    · subst hcp
      simp
    · rw [Bool.or_eq_true_iff]
      exact Or.inr (hall c hc hcp)

theorem c5_genericJoin_selection_witness :
    pickBest [⟨5, false, 0⟩, ⟨3, false, 1⟩, ⟨3, true, 2⟩, ⟨3, false, 3⟩] none
        = some ⟨3, false, 1⟩
    ∧ ((Proposal.mk 3 false 1).skip = false
      ∧ (∀ q ∈ [Proposal.mk 5 false 0, ⟨3, false, 1⟩, ⟨3, true, 2⟩, ⟨3, false, 3⟩],
          q.skip = false → (Proposal.mk 3 false 1).cardinality ≤ q.cardinality)
      ∧ (∃ l₁ l₂, [Proposal.mk 5 false 0, ⟨3, false, 1⟩, ⟨3, true, 2⟩, ⟨3, false, 3⟩]
          = l₁ ++ ⟨3, false, 1⟩ :: l₂
          ∧ ∀ q ∈ l₁, q.skip = false
            → (Proposal.mk 3 false 1).cardinality < q.cardinality))
    ∧ (∀ v, v ∈ acceptedValues [0, 1, 2] (Proposal.mk 3 false 1).proposer
          (fun c v => c + v ≠ 2) [0, 1, 2]
        ↔ (v ∈ [0, 1, 2] ∧ ∀ c ∈ [0, 1, 2], c ≠ (Proposal.mk 3 false 1).proposer
            → (fun c v => decide (c + v ≠ 2)) c v = true)) :=
  ⟨by decide,
    c5_genericJoin_selection [⟨5, false, 0⟩, ⟨3, false, 1⟩, ⟨3, true, 2⟩, ⟨3, false, 3⟩]
      ⟨3, false, 1⟩ (by decide) [0, 1, 2] (fun c v => c + v ≠ 2) [0, 1, 2]⟩

/-! ## Static joins and dormancy (`JoinNode` constructor and `exec`)

The constructor marks a join static when its constraints are all move
constraints with static (non-register) sources.  `exec` dispatches on
the input: `BLOCK_REMOVE` always runs (even while dormant); otherwise a
static dormant join returns `false` at once; `BLOCK_ADD` and ordinary
inputs run the join.  After a successful run of a static join the
`dormant` flag is set; nothing in the runtime ever clears it. -/

/-- The shape of a constraint as tested by the `JoinNode` constructor:
a scan, a function constraint, or a move constraint whose
`isStatic` flag records that its `from` source is not a register. -/
inductive CKind where
  | scanC
  | functionC
  | moveC (isStaticSrc : Bool)
deriving DecidableEq, Repr

/-- `hasOnlyMoves` accumulator of the constructor loop. -/
def hasOnlyMoves (cs : List CKind) : Bool :=
  cs.all fun c => match c with
    | .moveC _ => true
    | _ => false

/-- `onlyStatic` accumulator of the constructor loop (demoted only by a
move constraint with a register source). -/
def onlyStatic (cs : List CKind) : Bool :=
  cs.all fun c => match c with
    | .moveC s => s
    | _ => true

/-- `this.isStatic` as computed by the `JoinNode` constructor. -/
def isStaticOf (cs : List CKind) : Bool :=
  hasOnlyMoves cs && onlyStatic cs

/-- The three input shapes `JoinNode.exec` distinguishes. -/
inductive JInput where
  | blockAdd
  | blockRemove
  | ordinary
deriving DecidableEq, Repr

/-- The control flow of `JoinNode.exec` around `applyCombination`,
abstracting whether the join body did something into `applied`.
Returns `(didSomething, new dormant flag)`. -/
def joinExecStep (isStatic dormant : Bool) (input : JInput) (applied : Bool) :
    Bool × Bool :=
  match input with
  | .blockRemove => (applied, dormant || (isStatic && applied))
  | _ =>
    if isStatic && dormant then (false, dormant)
    else (applied, dormant || (isStatic && applied))

/-- C8 counterexample: dormancy is *not* reset by `BLOCK_REMOVE`.  A
dormant static join runs for `BLOCK_REMOVE` but its dormant flag stays
set, and the subsequent `BLOCK_ADD` does not execute the join at all —
refuting "its dormancy is reset by BLOCK_REMOVE so that a subsequent
BLOCK_ADD executes it again". -/
theorem c8_dormancy_counterexample :
    (joinExecStep true true .blockRemove true).2 = true
    ∧ (joinExecStep true true .blockAdd true).1 = false := by decide

/-- C8 amended: a join whose constraints are all move constraints with
static sources is marked static; a static join becomes dormant after
its first successful execution and never executes again for ordinary
inputs or for `BLOCK_ADD`; `BLOCK_REMOVE` bypasses dormancy and
executes the join even while dormant, but the dormant flag is never
cleared, so a subsequent `BLOCK_ADD` still does not execute it. -/
theorem c8_dormancy_amended :
    (∀ cs : List CKind, (∀ c ∈ cs, c = CKind.moveC true) → isStaticOf cs = true)
    ∧ (∀ (i : JInput) (d : Bool), (joinExecStep true d i true).2 = true)
    ∧ (∀ a : Bool, joinExecStep true true .ordinary a = (false, true))
    ∧ (∀ a : Bool, joinExecStep true true .blockAdd a = (false, true))
    ∧ (∀ a : Bool, joinExecStep true true .blockRemove a = (a, true)) := by
  refine ⟨?_, ?_, ?_, ?_, ?_⟩
  · intro cs h
    unfold isStaticOf hasOnlyMoves onlyStatic
    rw [Bool.and_eq_true, List.all_eq_true, List.all_eq_true]
    constructor
    · intro c hc
      rw [h c hc]
    · intro c hc
      rw [h c hc]
  · intro i d
    cases i <;> cases d <;> decide
  · intro a; cases a <;> decide
  · intro a; cases a <;> decide
  · intro a; cases a <;> decide

theorem c8_dormancy_amended_witness :
    (∀ c ∈ [CKind.moveC true, CKind.moveC true], c = CKind.moveC true)
    ∧ isStaticOf [CKind.moveC true, CKind.moveC true] = true :=
  ⟨by decide, c8_dormancy_amended.1 [CKind.moveC true, CKind.moveC true] (by decide)⟩

/-! ## Multiplicity composition (`JoinNode.computeMultiplicities`)

For a fully bound prefix, `prefixToResults` collects each non-input
scan's diff array (`getDiffs`) and `computeMultiplicities` emits, per
combination of per-scan contributions, a `(round, count)` pair: each
scan contributes either the accumulated sign sum of its diff entries
whose round applies at or before the current round (when nonzero), or a
single later diff entry; the count multiplies the input count by every
chosen contribution and the round is the running maximum, seeded with
the current round. -/

/-- `round > 0 ? 1 : -1` — the sign a diff entry contributes. -/
def signOf (r : Int) : Int := if 0 < r then 1 else -1

/-- The loop's break test, negated: entry `r` applies at or before the
current round when `|r| - 1 ≤ currentRound`. -/
def appliesBy (cr : Int) (r : Int) : Bool :=
  decide ((r.natAbs : Int) - 1 ≤ cr)

/-- The diff entries accumulated by the first loop (it breaks at the
first entry past the current round). -/
def preDiffs (cr : Int) (rounds : List Int) : List Int :=
  rounds.takeWhile (appliesBy cr)

/-- The diff entries the second loop walks (from the break position to
the end). -/
def postDiffs (cr : Int) (rounds : List Int) : List Int :=
  rounds.dropWhile (appliesBy cr)

/-- The recursive body of `computeMultiplicities` over the remaining
diff arrays, carrying the starting round and multiplicity stored in the
prefix's last two slots. -/
def cmAux (cr : Int) : List (List Int) → Int → Int → List (Int × Int)
  | [], sr, sm => [(sr, sm)]
  | rounds :: rest, sr, sm =>
    (if ((preDiffs cr rounds).map signOf).sum ≠ 0
      then cmAux cr rest (max cr sr) (sm * ((preDiffs cr rounds).map signOf).sum)
      else [])
    ++ (postDiffs cr rounds).flatMap
        (fun r => cmAux cr rest (max ((r.natAbs : Int) - 1) sr) (sm * signOf r))

/-- `JoinNode.computeMultiplicities`: the initial call seeds the prefix
round/count slots with the current round and the node's input count. -/
def JoinNode.computeMultiplicities (inputCount cr : Int)
    (diffs : List (List Int)) : List (Int × Int) :=
  cmAux cr diffs cr inputCount

/-- The possible contributions of one scan's diff array: the
accumulated sign sum up to the current round (when nonzero, at round
`cr`), or one later diff entry `r` (sign `signOf r`, at round
`|r| - 1`). -/
def scanChoices (cr : Int) (rounds : List Int) : List (Int × Int) :=
  (if ((preDiffs cr rounds).map signOf).sum ≠ 0
    then [(((preDiffs cr rounds).map signOf).sum, cr)] else [])
  ++ (postDiffs cr rounds).map (fun r => (signOf r, (r.natAbs : Int) - 1))

theorem cmAux_mem_spec (cr : Int) : ∀ (diffs : List (List Int)) (sr sm : Int)
    (p : Int × Int), p ∈ cmAux cr diffs sr sm →
    ∃ choices : List (Int × Int),
      List.Forall₂ (fun rounds ch => ch ∈ scanChoices cr rounds) diffs choices
      ∧ p.2 = sm * (choices.map Prod.fst).prod
      ∧ p.1 = (choices.map Prod.snd).foldl max sr := by
  intro diffs
  induction diffs with
  | nil =>
    intro sr sm p hp
    rw [cmAux, List.mem_singleton] at hp
    subst hp
    exact ⟨[], List.Forall₂.nil, by simp, by simp⟩
  | cons rounds rest ih =>
    intro sr sm p hp
    rw [cmAux] at hp
    rcases List.mem_append.mp hp with hpre | hpost
    · by_cases hc : ((preDiffs cr rounds).map signOf).sum ≠ 0
      · rw [if_pos hc] at hpre
        obtain ⟨choices, hf, hcount, hround⟩ := ih (max cr sr)
          (sm * ((preDiffs cr rounds).map signOf).sum) p hpre
        refine ⟨(((preDiffs cr rounds).map signOf).sum, cr) :: choices, ?_, ?_, ?_⟩
        · refine List.Forall₂.cons ?_ hf
          simp [scanChoices, hc]
        · rw [hcount]
          simp [mul_assoc]
        · rw [hround]
          simp only [List.map_cons, List.foldl_cons]
          rw [max_comm]
      · rw [if_neg hc] at hpre
        exact absurd hpre (List.not_mem_nil _)
    · obtain ⟨r, hr, hpr⟩ := List.mem_flatMap.mp hpost
      obtain ⟨choices, hf, hcount, hround⟩ := ih (max ((r.natAbs : Int) - 1) sr)
        (sm * signOf r) p hpr
      refine ⟨(signOf r, (r.natAbs : Int) - 1) :: choices, ?_, ?_, ?_⟩
      · refine List.Forall₂.cons ?_ hf
        rw [scanChoices]
        refine List.mem_append.mpr (Or.inr ?_)
        exact List.mem_map.mpr ⟨r, hr, rfl⟩
      · rw [hcount]
        simp [mul_assoc]
      · rw [hround]
        simp only [List.map_cons, List.foldl_cons]
        rw [max_comm]

/-- C1: every `(round, count)` pair that `computeMultiplicities` derives
for a fully bound prefix satisfies: the count is the product of the
input change's count and one contribution per scan — the accumulated
sign sum of that scan's diffs up to the current round, or the sign of a
single later diff entry — and the output round is the maximum of the
input round and `|diffRound| - 1` over the contributing later diff
entries (the up-to-current contributions contribute the current round
itself, absorbed by the maximum). -/
theorem c1_computeMultiplicities (inputCount cr : Int)
    (diffs : List (List Int)) (p : Int × Int)
    (hp : p ∈ JoinNode.computeMultiplicities inputCount cr diffs) :
    ∃ choices : List (Int × Int),
      List.Forall₂ (fun rounds ch => ch ∈ scanChoices cr rounds) diffs choices
      ∧ p.2 = inputCount * (choices.map Prod.fst).prod
      ∧ p.1 = (choices.map Prod.snd).foldl max cr :=
  cmAux_mem_spec cr diffs cr inputCount p hp

theorem c1_computeMultiplicities_witness :
    ((0, 2) : Int × Int) ∈ JoinNode.computeMultiplicities 2 0 [[1]]
    ∧ ∃ choices : List (Int × Int),
        List.Forall₂ (fun rounds ch => ch ∈ scanChoices 0 rounds) [[1]] choices
        ∧ ((0, 2) : Int × Int).2 = 2 * (choices.map Prod.fst).prod
        ∧ ((0, 2) : Int × Int).1 = (choices.map Prod.snd).foldl max 0 :=
  ⟨by decide, c1_computeMultiplicities 2 0 [[1]] (0, 2) (by decide)⟩

/-! ## ChooseFlow wiring and anti-join exclusivity

The `ChooseFlow` constructor wraps each branch in a `BinaryJoinRight`
against the left on that branch's keys plus the extra outer joins; every
branch after the first is additionally wrapped in an
`AntiJoinPresolvedRight` whose right side is the choose node itself
(i.e. the combined results of all earlier branches) keyed on the union
of all branches' key registers.  `AntiJoin.onLeft` passes a left prefix
through exactly when the right key-only index has no entry for its key;
otherwise only the rounds reported by the `ZeroingIterator` (the rounds
where the right side's running count crossed zero) are emitted. -/

structure Register where
  offset : Nat
deriving DecidableEq, Repr

/-- One step of the `allKeys` accumulation: push the key unless a
register with the same offset is already present. -/
def addKey (allKeys : List Register) (key : Register) : List Register :=
  if allKeys.any (fun r => r.offset == key.offset) then allKeys
  else allKeys ++ [key]

/-- The union (by offset) of all branches' key registers. -/
def computeAllKeys (keyRegisters : List (List Register)) : List Register :=
  keyRegisters.foldl (fun acc ks => ks.foldl addKey acc) []

/-- The wrapper placed around a branch: a plain `BinaryJoinRight` with
its keys, or that join wrapped in an `AntiJoinPresolvedRight` (whose
right side is the choose's own results) with the anti-join keys. -/
inductive ChooseBranch where
  | bjr (keys : List Register)
  | ajpr (innerKeys : List Register) (antiKeys : List Register)
deriving DecidableEq, Repr

/-- The constructor loop: `prev` starts unset, so exactly the first
branch gets the plain join. -/
def chooseBranchesAux (allKeys extra : List Register) :
    List (List Register) → Bool → List ChooseBranch
  | [], _ => []
  | ks :: rest, isFirst =>
    (if isFirst then ChooseBranch.bjr (ks ++ extra)
      else ChooseBranch.ajpr (ks ++ extra) allKeys)
      :: chooseBranchesAux allKeys extra rest false

/-- The branch wrappers built by the `ChooseFlow` constructor. -/
def ChooseFlow.branchesOf (keyRegisters : List (List Register))
    (extra : List Register) : List ChooseBranch :=
  chooseBranchesAux (computeAllKeys keyRegisters) extra keyRegisters true

/-- The first inner loop of `ZeroingIterator.next` (entered while
`roundIx ≤ minRound`): accumulate counts and break at the first index
`≥ minRound` where the running sum is zero.  Returns the break round
(if any), the final index and the final running sum. -/
def ziLoop1 (counts : List Int) (minRound bound ix : Nat) (s : Int) :
    Option Nat × Nat × Int :=
  if _h : ix < bound then
    if minRound ≤ ix ∧ s + counts.getD ix 0 = 0 then
      (some ix, ix, s + counts.getD ix 0)
    else ziLoop1 counts minRound bound (ix + 1) (s + counts.getD ix 0)
  else (none, ix, s)
termination_by bound - ix
decreasing_by omega

/-- The second inner loop of `ZeroingIterator.next` (entered past
`minRound`): skip zero slots and break where the running sum crosses
between zero and positive relative to the snapshot taken at entry. -/
def ziLoop2 (counts : List Int) (snapshot : Int) (ix : Nat) (s : Int) :
    Option Nat × Nat × Int :=
  if _h : ix ≤ counts.length then
    if counts.getD ix 0 = 0 then ziLoop2 counts snapshot (ix + 1) s
    else if (snapshot = 0 ∧ 0 < s + counts.getD ix 0)
        ∨ (0 < snapshot ∧ s + counts.getD ix 0 = 0) then
      (some ix, ix, s + counts.getD ix 0)
    else ziLoop2 counts snapshot (ix + 1) (s + counts.getD ix 0)
  else (none, ix, s)
termination_by counts.length + 1 - ix
decreasing_by all_goals omega

/-- `ZeroingIterator` state: `nextIx` is the JS `roundIx + 1` (the next
index `next()` will look at after its increment). -/
structure ZIState where
  counts : List Int
  nextIx : Nat
  countSum : Int
  minRound : Nat
deriving Repr

/-- `ZeroingIterator.next()`: yields `(round, count)` with `count = -1`
when the running sum is nonzero after the break and `+1` when it is
zero; a return without a break yields nothing (and the iterator is
exhausted). -/
def ziNext (st : ZIState) : Option (Nat × Int) × ZIState :=
  if st.counts.length ≤ st.nextIx then (none, st)
  else if st.nextIx ≤ st.minRound then
    let bound := if st.counts.length ≤ st.minRound then st.minRound + 1
      else st.counts.length
    let r := ziLoop1 st.counts st.minRound bound st.nextIx st.countSum
    ((r.1).map (fun rd => (rd, if r.2.2 ≠ 0 then (-1 : Int) else 1)),
      { st with nextIx := r.2.1 + 1, countSum := r.2.2 })
  else
    let r := ziLoop2 st.counts st.countSum st.nextIx st.countSum
    ((r.1).map (fun rd => (rd, if r.2.2 ≠ 0 then (-1 : Int) else 1)),
      { st with nextIx := r.2.1 + 1, countSum := r.2.2 })

/-- Drain the zeroing iterator (the `while` loop in
`AntiJoin.onLeft`); the fuel strictly exceeds the maximum number of
yields, so the drain is exact. -/
def ziRun : ZIState → Nat → List (Nat × Int)
  | _, 0 => []
  | st, fuel + 1 =>
    match ziNext st with
    | (none, _) => []
    | (some rc, st') => rc :: ziRun st' fuel

/-- All `(round, count)` pairs yielded for a right-side count array at
a given minimum round. -/
def zeroingYields (counts : List Int) (minRound : Nat) : List (Nat × Int) :=
  ziRun ⟨counts, 0, 0, minRound⟩ (counts.length + 2)

/-- `AntiJoin.onLeft` as a function of the right key-only index entry
for the left prefix's key: with no entry the prefix passes through
unchanged; with an entry, one output per zeroing-iterator yield, at the
yielded round with `count = yieldCount * prefixCount`. -/
def AntiJoin.onLeftOutput (rightCounts : Option (List Int)) (pfxRound : Nat)
    (pfxCount : Int) : List (Nat × Int) :=
  match rightCounts with
  | none => [(pfxRound, pfxCount)]
  | some counts =>
    (zeroingYields counts pfxRound).map (fun rc => (rc.1, rc.2 * pfxCount))

theorem take_succ_sum (l : List Int) (n : Nat) :
    (l.take (n + 1)).sum = (l.take n).sum + l.getD n 0 := by
  rw [List.take_succ, List.sum_append]
  congr 1
  cases h : l[n]? with
  | none => simp [List.getD, h]
  | some a => simp [List.getD, h]

theorem ziLoop1_none_aux : ∀ (n : Nat) (counts : List Int)
    (minRound bound ix : Nat), bound - ix ≤ n →
    (∀ k, minRound ≤ k → k < bound → (counts.take (k + 1)).sum ≠ 0) →
    (ziLoop1 counts minRound bound ix ((counts.take ix).sum)).1 = none := by
  intro n
  induction n with
  | zero =>
    intro counts minRound bound ix hn h
    rw [ziLoop1, dif_neg (by omega)]
  | succ n ih =>
    intro counts minRound bound ix hn h
    rw [ziLoop1]
    by_cases hix : ix < bound
    · rw [dif_pos hix]
      by_cases hbr : minRound ≤ ix ∧ (counts.take ix).sum + counts.getD ix 0 = 0
      · exfalso
        apply h ix hbr.1 hix
        rw [take_succ_sum]
        exact hbr.2
      · rw [if_neg hbr, ← take_succ_sum]
        exact ih counts minRound bound (ix + 1) (by omega) h
    · rw [dif_neg hix]

theorem ziNext_first_none (counts : List Int) (minRound : Nat)
    (h : ∀ k, minRound ≤ k → (counts.take (k + 1)).sum ≠ 0) :
    (ziNext ⟨counts, 0, 0, minRound⟩).1 = none := by
  unfold ziNext
  dsimp only
  by_cases hlen : counts.length ≤ 0
  · rw [if_pos hlen]
  · rw [if_neg hlen, if_pos (Nat.zero_le minRound)]
    have hz : (ziLoop1 counts minRound
        (if counts.length ≤ minRound then minRound + 1 else counts.length)
        0 0).1 = none :=
      ziLoop1_none_aux
        ((if counts.length ≤ minRound then minRound + 1 else counts.length) - 0)
        counts minRound _ 0 (le_refl _) (fun k hk _ => h k hk)
    rw [hz]
    rfl

theorem ziRun_of_none (st : ZIState) (fuel : Nat)
    (h : (ziNext st).1 = none) : ziRun st fuel = [] := by
  cases fuel with
  | zero => rfl
  | succ n =>
    rw [ziRun]
    rcases hz : ziNext st with ⟨o, st'⟩
    rw [hz] at h
    simp only at h
    subst h
    rfl

theorem chooseBranchesAux_false (allKeys extra : List Register) :
    ∀ rest : List (List Register),
    chooseBranchesAux allKeys extra rest false
      = rest.map (fun ks => ChooseBranch.ajpr (ks ++ extra) allKeys) := by
  intro rest
  induction rest with
  | nil => rfl
  | cons k ks ih =>
    rw [chooseBranchesAux, if_neg (by simp), ih, List.map_cons]

/-- C4: in a `ChooseFlow`, the first branch is a plain
`BinaryJoinRight` on its own keys plus the extra outer joins, and every
branch after the first is wrapped in an `AntiJoinPresolvedRight`
against the combined results of all earlier branches (the choose's own
result iterator) keyed on the union of all branches' key registers;
consequently the anti-join passes a left prefix through exactly when no
earlier branch produced a (still live) result for the same key: with no
right-index entry the prefix passes unchanged, and with a right entry
whose running count stays nonzero from the prefix's round on, the
branch emits nothing for that prefix. -/
theorem c4_chooseFlow :
    (∀ (ks : List Register) (rest : List (List Register))
        (extra : List Register),
      ChooseFlow.branchesOf (ks :: rest) extra
        = ChooseBranch.bjr (ks ++ extra)
          :: rest.map (fun k => ChooseBranch.ajpr (k ++ extra)
              (computeAllKeys (ks :: rest))))
    ∧ (∀ (pr : Nat) (pc : Int),
        AntiJoin.onLeftOutput none pr pc = [(pr, pc)])
    ∧ (∀ (counts : List Int) (pr : Nat) (pc : Int),
        (∀ k, pr ≤ k → (counts.take (k + 1)).sum ≠ 0) →
        AntiJoin.onLeftOutput (some counts) pr pc = []) := by
  refine ⟨?_, ?_, ?_⟩
  · intro ks rest extra
    rw [ChooseFlow.branchesOf, chooseBranchesAux, if_pos rfl,
      chooseBranchesAux_false]
  · intro pr pc
    rfl
  · intro counts pr pc h
    show (zeroingYields counts pr).map _ = []
    rw [zeroingYields, ziRun_of_none _ _ (ziNext_first_none counts pr h)]
    rfl

theorem c4_chooseFlow_witness :
    (∀ k, 0 ≤ k → ((([1] : List Int)).take (k + 1)).sum ≠ 0)
    ∧ AntiJoin.onLeftOutput (some [1]) 0 5 = [] := by
  have h : ∀ k : Nat, 0 ≤ k → ((([1] : List Int)).take (k + 1)).sum ≠ 0 := by
    intro k _
    rw [List.take_of_length_le (by simp)]
    decide
  exact ⟨h, c4_chooseFlow.2.2 [1] 0 5 h⟩

end Eve
